import Mathlib

/-!
Shallow embedding of the `tmsg` Turing machine simulator and combinator
library (`turing.hpp` / `turing.cpp` / `main.cpp`).

The C++ `turing_machine` class is modelled as a Lean structure; its
`std::unordered_map` transition table is modelled as an association list
with distinct keys maintained by the operations (`operator[]` assignment
replaces the reaction in place, `merge` keeps the receiver's entry on a
key collision, range construction keeps the first occurrence of a key).
Iteration order of the C++ hash map is unspecified; the association list
fixes one concrete order, which only influences the order in which
transitions are serialized, never a lookup.
-/

namespace Tmsg

/-- `turing_machine::direction` from `turing.hpp`. -/
inductive direction where
  | left
  | right
  | hold
deriving DecidableEq, Repr

/-- `turing_machine::status` from `turing.hpp`. -/
inductive status where
  | accept
  | reject
  | halt
  | running
deriving DecidableEq, Repr

/-- `turing_machine::tape_state`: a `(state, symbol)` pair. -/
abbrev tape_state := String × Char

/-- `turing_machine::tape_reaction`: `((next_state, write_symbol), direction)`. -/
abbrev tape_reaction := tape_state × direction

/-- `turing_machine::transition_entry`. -/
abbrev transition_entry := tape_state × tape_reaction

/-- The transition table, modelled as an association list. -/
abbrev transition_table := List transition_entry

/-- Lookup in a transition table (`unordered_map::at` / `contains`). -/
def lookupTable : transition_table → tape_state → Option tape_reaction
  | [], _ => none
  | e :: es, k => if e.1 = k then some e.2 else lookupTable es k

/-- `unordered_map::operator[]` assignment: replace the reaction of an
existing key in place, otherwise insert the new entry. -/
def assign : transition_table → tape_state → tape_reaction → transition_table
  | [], k, r => [(k, r)]
  | e :: es, k, r => if e.1 = k then (k, r) :: es else e :: assign es k r

/-- `unordered_map::insert` of a single entry: a no-op when the key is
already present. -/
def insertNew (t : transition_table) (e : transition_entry) : transition_table :=
  if (lookupTable t e.1).isSome then t else t ++ [e]

/-- Conversion of an entry range to an `unordered_map`
(`std::ranges::to<transition_table>`): on duplicate keys the first
occurrence wins. -/
def fromList (es : List transition_entry) : transition_table :=
  es.foldl insertNew []

/-- `unordered_map::merge`: move each entry of the source into the target
unless the target already holds the key. -/
def mergeTable (target source : transition_table) : transition_table :=
  source.foldl insertNew target

/-- The `turing_machine` class. Field defaults mirror the in-class member
initializers of `turing.hpp` (`current_state{initial}` evaluates to the
default `"qStart"` at construction). -/
structure turing_machine where
  transitions : transition_table := []
  initial : String := "qStart"
  halt_state : String := "H"
  accept : String := "Y"
  title : String := "MyMachine"
  tape_right : List Char := []
  tape_left : List Char := []
  head_index : Int := 0
  current_state : String := "qStart"
deriving DecidableEq, Repr

/-- `turing_machine::blank_symbol`. -/
def blank_symbol : Char := '_'

namespace turing_machine

/-- `turing_machine::add_transition`: `transitions[state] = reaction`. -/
def add_transition (tm : turing_machine) (state : tape_state) (reaction : tape_reaction) :
    turing_machine :=
  { tm with transitions := assign tm.transitions state reaction }

/-- `turing_machine::add_transitions`: convert the incoming range to a
table, then `merge` it into the machine's table. -/
def add_transitions (tm : turing_machine) (ts : List transition_entry) : turing_machine :=
  { tm with transitions := mergeTable tm.transitions (fromList ts) }

/-- `turing_machine::redirect_state`: for each alphabet symbol `s`, add
`(from, s) -> ((to, s), hold)`. The C++ iterates a `std::set<char>`, so
the alphabet is passed as the (sorted, duplicate-free) list the set
iterates. -/
def redirect_state (tm : turing_machine) (state_from state_to : String)
    (alphabet : List Char) : turing_machine :=
  alphabet.foldl
    (fun tm symbol => add_transition tm (state_from, symbol) ((state_to, symbol), direction.hold))
    tm

/-- `turing_machine::set_initial_state`. -/
def set_initial_state (tm : turing_machine) (name : String) : turing_machine :=
  { tm with initial := name }

/-- `turing_machine::set_accept_state`. -/
def set_accept_state (tm : turing_machine) (name : String) : turing_machine :=
  { tm with accept := name }

/-- `turing_machine::set_title`. -/
def set_title (tm : turing_machine) (title : String) : turing_machine :=
  { tm with title := title }

/-- `turing_machine::load_input`. -/
def load_input (tm : turing_machine) (input : List Char) : turing_machine :=
  { tm with
    current_state := tm.initial
    head_index := 0
    tape_left := []
    tape_right := if input = [] then [blank_symbol] else input }

/-- The symbol currently under the head: position `p ≥ 0` is
`tape_right[p]`, position `p < 0` is `tape_left[-p-1]`. `none` models the
out-of-bounds access the C++ would perform (`.at` throws / `[]` is UB)
if the head addressed a cell that was never materialized. -/
def currentSymbol (tm : turing_machine) : Option Char :=
  if 0 ≤ tm.head_index then tm.tape_right.get? tm.head_index.toNat
  else tm.tape_left.get? (-tm.head_index - 1).toNat

/-- Write a symbol at tape position `pos` (two-sided addressing). -/
def writeAtPos (tm : turing_machine) (pos : Int) (c : Char) : turing_machine :=
  if 0 ≤ pos then { tm with tape_right := tm.tape_right.set pos.toNat c }
  else { tm with tape_left := tm.tape_left.set (-pos - 1).toNat c }

/-- The `index_diff` map inside `turing_machine::step`. -/
def index_diff : direction → Int
  | direction.left => -1
  | direction.right => 1
  | direction.hold => 0

/-- `turing_machine::step`. Returns `none` exactly when the head does not
address a materialized cell (where the C++ has undefined/throwing
behaviour); otherwise returns the status together with the new machine.
The write goes to the cell the head occupied *before* the move (the C++
binds `current_symbol` by reference before updating `head_index`), then
each side of the tape grows by one blank if the new head sits one past
its end, and finally the status is classified (halt checked first, then
accept). -/
def step (tm : turing_machine) : Option (status × turing_machine) :=
  match currentSymbol tm with
  | none => none
  | some cur =>
    match lookupTable tm.transitions (tm.current_state, cur) with
    | none => some (status.reject, tm)
    | some reaction =>
      let tm1 : turing_machine :=
        { tm with
          current_state := reaction.1.1
          head_index := tm.head_index + index_diff reaction.2 }
      let tm2 := writeAtPos tm1 tm.head_index reaction.1.2
      let tm3 :=
        if tm2.head_index = (tm2.tape_right.length : Int) then
          { tm2 with tape_right := tm2.tape_right ++ [blank_symbol] }
        else tm2
      let tm4 :=
        if -tm3.head_index - 1 = (tm3.tape_left.length : Int) then
          { tm3 with tape_left := tm3.tape_left ++ [blank_symbol] }
        else tm3
      some
        (if tm4.current_state = tm4.halt_state then status.halt
         else if tm4.current_state = tm4.accept then status.accept
         else status.running,
         tm4)

/-- `turing_machine::tape`: `reverse(tape_left) ++ tape_right`. -/
def tape (tm : turing_machine) : List Char :=
  tm.tape_left.reverse ++ tm.tape_right

/-- `turing_machine::transform_states`: rebuild the table with every state
label passed through `callback` (via `operator[]` assignment, in table
order), then construct a fresh machine from it and set
initial/accept/title. The fresh machine keeps the default `halt_state`
and run-state fields. -/
def transform_states (tm : turing_machine) (callback : String → String) : turing_machine :=
  let tbl := tm.transitions.foldl
    (fun acc e =>
      assign acc (callback e.1.1, e.1.2) ((callback e.2.1.1, e.2.1.2), e.2.2))
    []
  { transitions := tbl
    initial := callback tm.initial
    accept := callback tm.accept
    title := tm.title }

/-- `turing_machine::prefix`: rename every state `q` to `"[str]q"`. -/
def prefix_states (tm : turing_machine) (str : String) : turing_machine :=
  transform_states tm (fun s => "[" ++ str ++ "]" ++ s)

/-- `turing_machine::prefixed`: prefix by the machine's own title. -/
def prefixed (tm : turing_machine) : turing_machine :=
  prefix_states tm tm.title

/-- `turing_machine::multiconcat` over a nonempty range, given here as
head and tail. Left fold: redirect the accumulated accept to the next
machine's (prefixed) initial, merge its table, take over its accept. -/
def multiconcat (first : turing_machine) (rest : List turing_machine)
    (alphabet : List Char) (title : String) : turing_machine :=
  let initial := first.prefixed
  let result := rest.foldl
    (fun acc second =>
      let prefixed_second := second.prefixed
      let r := redirect_state acc acc.accept prefixed_second.initial alphabet
      let r := add_transitions r prefixed_second.transitions
      set_accept_state r prefixed_second.accept)
    initial
  set_title result title

/-- `turing_machine::multiunion` over a nonempty range, given here as
head and tail: merge the tables of the later machines into the first. -/
def multiunion (first : turing_machine) (rest : List turing_machine)
    (title : String) : turing_machine :=
  let result := rest.foldl (fun acc second => add_transitions acc second.transitions) first
  set_title result title

/-- `turing_machine::status_message`: the map holds entries only for the
three terminal statuses; `.at` on `running` throws `std::out_of_range`,
modelled as `none`. -/
def status_message : status → Option String
  | status.accept => some "Machine accepted."
  | status.reject => some "Machine rejected."
  | status.halt => some "Machine halted."
  | status.running => none

/-- Repeated `step` calls, keeping only the machine. -/
def stepN : Nat → turing_machine → Option turing_machine
  | 0, tm => some tm
  | n + 1, tm => (step tm).bind (fun p => stepN n p.2)

/-- The `run_input` loop of `main.cpp`: call `step` until its status is no
longer `running`, collecting the statuses in order; `none` when the run
does not terminate within `fuel` steps (or hits an unmaterialized cell). -/
def runTrace : Nat → turing_machine → Option (List status × turing_machine)
  | 0, _ => none
  | n + 1, tm =>
    (step tm).bind fun p =>
      if p.1 = status.running then
        (runTrace n p.2).map (fun q => (p.1 :: q.1, q.2))
      else some ([p.1], p.2)

end turing_machine

namespace component

open turing_machine

/-- `component::alphabet`: the `std::set<char>` built from `"1234:#_"`,
listed in its sorted iteration order. -/
def alphabet : List Char := ['#', '1', '2', '3', '4', ':', '_']

/-- `component::_move`. -/
def _move (amount : Nat) (name : String) (d : direction) : turing_machine :=
  let tm0 := set_initial_state {} "0"
  let tm1 := alphabet.foldl
    (fun tm symbol =>
      let tm := add_transitions tm
        ((List.range amount).map fun idx =>
          ((toString idx, symbol), ((toString (idx + 1), symbol), d)))
      add_transition tm (toString amount, symbol) ((tm.accept, symbol), direction.hold))
    tm0
  set_title tm1 name

/-- `component::move_right`. -/
def move_right (amount : Nat) (name : String) : turing_machine :=
  _move amount name direction.right

/-- `component::move_left`. -/
def move_left (amount : Nat) (name : String) : turing_machine :=
  _move amount name direction.left

/-- `component::find`. -/
def find (needle : Char) (name : String) (d : direction) : turing_machine :=
  let tm0 := set_initial_state {} "search"
  let tm1 := alphabet.foldl
    (fun tm symbol =>
      add_transition tm ("search", symbol)
        ((if symbol = needle then tm.accept else "search", symbol),
         if symbol = needle then direction.hold else d))
    tm0
  set_title tm1 name

/-- `component::repeater`. -/
inductive repeater where
  | do_until
  | do_while
deriving DecidableEq, Repr

/-- `component::repeat`. -/
def repeatTM (tm : turing_machine) (type : repeater) (symbol : Char) (name : String) :
    turing_machine :=
  let r := multiconcat tm [] alphabet name
  let checker_state := "check"
  let break_state := "break"
  let r := redirect_state r r.accept checker_state alphabet
  let r := redirect_state r checker_state
    (match type with
     | repeater.do_until => r.initial
     | repeater.do_while => break_state)
    alphabet
  let r := add_transition r (checker_state, symbol)
    (((match type with
       | repeater.do_until => break_state
       | repeater.do_while => r.initial), symbol), direction.hold)
  set_accept_state r break_state

/-- `component::consume_right`. -/
def consume_right (symbol : Char) (name : String) : turing_machine :=
  let tm := set_initial_state {} (String.mk [symbol])
  let tm := add_transition tm (tm.initial, symbol) ((tm.accept, symbol), direction.right)
  set_title tm name

end component

/-! ### Textual IO (`operator<<` / `operator>>` of `turing.cpp`)

Text is modelled as `List Char`. `std::getline` splits the stream at
newlines and sees no final empty line when the text ends with a newline;
`split_line` splits a line at a separator character (an empty line splits
to one empty field); `trim` drops whitespace from both ends. -/

/-- The `is_space` predicate of `turing.cpp` (`" \t\n\v\r\f"`). -/
def is_space (c : Char) : Bool :=
  c = ' ' ∨ c = '\t' ∨ c = '\n' ∨ c = '\x0b' ∨ c = '\r' ∨ c = '\x0c'

/-- `trim` from `turing.cpp`: drop whitespace from both ends. -/
def trimChars (l : List Char) : List Char :=
  ((l.dropWhile is_space).reverse.dropWhile is_space).reverse

/-- `split_line` from `turing.cpp` (`std::views::split` at one character). -/
def splitOnChar (c : Char) : List Char → List (List Char)
  | [] => [[]]
  | x :: xs =>
    if x = c then [] :: splitOnChar c xs
    else
      match splitOnChar c xs with
      | [] => [[x]]
      | y :: ys => (x :: y) :: ys

/-- The lines `std::getline` yields from a text: newline-separated chunks,
with no final empty line when the text ends in a newline (and none at all
for the empty text). -/
def getLines (text : List Char) : List (List Char) :=
  if text.getLast? = some '\n' ∨ text = [] then (splitOnChar '\n' text).dropLast
  else splitOnChar '\n' text

/-- Join lines into a text, each line followed by a newline
(`std::endl` after every line written by `operator<<`). -/
def unlines : List (List Char) → List Char
  | [] => []
  | l :: ls => l ++ '\n' :: unlines ls

/-- `direction_to_specifier` from `turing.cpp`. -/
def dirToSpec : direction → List Char
  | direction.left => ['<']
  | direction.right => ['>']
  | direction.hold => ['-']

/-- `specifier_to_direction` from `turing.cpp` (`.at` on an unknown
specifier throws, modelled as `none`). -/
def specToDir (s : List Char) : Option direction :=
  if s = ['<'] then some direction.left
  else if s = ['>'] then some direction.right
  else if s = ['-'] then some direction.hold
  else none

/-- The two lines `operator<<` writes for one transition entry, plus the
separating blank line. -/
def entryLines (e : transition_entry) : List (List Char) :=
  [e.1.1.toList ++ ',' :: [e.1.2],
   e.2.1.1.toList ++ ',' :: e.2.1.2 :: ',' :: dirToSpec e.2.2,
   []]

/-- The lines `operator<<` writes for a machine: the two headers, a blank
line, then each transition entry. -/
def serializeLines (tm : turing_machine) : List (List Char) :=
  ("init: ".toList ++ tm.initial.toList)
    :: ("accept: ".toList ++ tm.accept.toList)
    :: [] :: tm.transitions.flatMap entryLines

/-- `operator<<`: the serialized text of a machine. -/
def serialize (tm : turing_machine) : List Char :=
  unlines (serializeLines tm)

/-- The transition-reading loop of `operator>>`: skip blank lines and
`//` comment lines; otherwise parse a key line, read the next line as the
reaction line, and `add_transition`. Any field shortage or unknown
direction specifier is a parse failure (`none`), as the C++ throws. -/
def parseLoop (tm : turing_machine) : List (List Char) → Option turing_machine
  | [] => some tm
  | l :: rest =>
    if l = [] then parseLoop tm rest
    else if l.take 2 = ['/', '/'] then parseLoop tm rest
    else
      let values_from := splitOnChar ',' l
      match values_from.get? 0, (values_from.get? 1).bind List.head? with
      | some state_from, some symbol_from =>
        match rest with
        | [] => none
        | l2 :: rest2 =>
          let values_to := splitOnChar ',' l2
          match values_to.get? 0, (values_to.get? 1).bind List.head?,
              (values_to.get? 2).bind specToDir with
          | some state_to, some symbol_to, some d =>
            parseLoop
              (tm.add_transition (String.mk state_from, symbol_from)
                ((String.mk state_to, symbol_to), d))
              rest2
          | _, _, _ => none
      | _, _ => none

/-- `operator>>` applied to a line list: the first two lines are split at
`:`, field 1 is trimmed and becomes initial resp. accept. -/
def parseLines : List (List Char) → Option turing_machine
  | l0 :: l1 :: rest =>
    match (splitOnChar ':' l0).get? 1, (splitOnChar ':' l1).get? 1 with
    | some f0, some f1 =>
      let tm := turing_machine.set_accept_state
        (turing_machine.set_initial_state {} (String.mk (trimChars f0)))
        (String.mk (trimChars f1))
      parseLoop tm rest
    | _, _ => none
  | _ => none

/-- `read_tm` from `main.cpp`: parse a machine from text, starting from a
default-constructed machine. -/
def parse (text : List Char) : Option turing_machine :=
  parseLines (getLines text)

/-! ### Lemmas on transition tables -/

theorem lookupTable_assign (t : transition_table) (k : tape_state) (r : tape_reaction)
    (k' : tape_state) :
    lookupTable (assign t k r) k' = if k = k' then some r else lookupTable t k' := by
  induction t with
  | nil =>
    simp [assign, lookupTable]
  | cons e es ih =>
    simp only [assign]
    by_cases he : e.1 = k
    · rw [if_pos he]
      simp only [lookupTable]
      by_cases hk : k = k'
      · simp [hk]
      · have hek : ¬ e.1 = k' := he ▸ hk
        rw [if_neg hk, if_neg hk, if_neg hek]
    · rw [if_neg he]
      simp only [lookupTable]
      by_cases hek : e.1 = k'
      · have hkk : ¬ k = k' := fun h => he (h ▸ hek)
        rw [if_pos hek, if_neg hkk, if_pos hek]
      · rw [if_neg hek, ih]
        by_cases hk : k = k'
        · simp [hk]
        · simp [hk, hek]

theorem assign_eq_append (t : transition_table) (k : tape_state) (r : tape_reaction)
    (h : lookupTable t k = none) : assign t k r = t ++ [(k, r)] := by
  induction t with
  | nil => simp [assign]
  | cons e es ih =>
    simp only [lookupTable] at h
    by_cases he : e.1 = k
    · simp [he] at h
    · simp only [he, if_false] at h
      simp [assign, he, ih h]

theorem lookupTable_append_left (t1 t2 : transition_table) (k : tape_state)
    (r : tape_reaction) (h : lookupTable t1 k = some r) :
    lookupTable (t1 ++ t2) k = some r := by
  induction t1 with
  | nil => simp [lookupTable] at h
  | cons e es ih =>
    simp only [lookupTable] at h ⊢
    by_cases he : e.1 = k
    · simpa [he] using h
    · simp only [he, if_false] at h ⊢
      exact ih h

theorem lookupTable_append_right (t1 t2 : transition_table) (k : tape_state)
    (h : lookupTable t1 k = none) :
    lookupTable (t1 ++ t2) k = lookupTable t2 k := by
  induction t1 with
  | nil => simp [lookupTable]
  | cons e es ih =>
    simp only [lookupTable] at h ⊢
    by_cases he : e.1 = k
    · simp [he] at h
    · simp only [he, if_false] at h ⊢
      exact ih h

theorem lookupTable_insertNew (t : transition_table) (e : transition_entry)
    (k : tape_state) :
    lookupTable (insertNew t e) k =
      if k = e.1 ∧ lookupTable t k = none then some e.2 else lookupTable t k := by
  unfold insertNew
  cases he : lookupTable t e.1 with
  | some r =>
    simp only [he, Option.isSome_some, if_true]
    by_cases hk : k = e.1
    · subst hk; simp [he]
    · simp [hk]
  | none =>
    simp only [he, Option.isSome_none, Bool.false_eq_true, if_false]
    by_cases hk : k = e.1
    · subst hk
      rw [lookupTable_append_right _ _ _ he]
      simp [lookupTable, he]
    · cases h : lookupTable t k with
      | none =>
        rw [lookupTable_append_right _ _ _ h]
        have : ¬ e.1 = k := fun h' => hk h'.symm
        simp [lookupTable, this, hk]
      | some r =>
        rw [lookupTable_append_left _ _ _ _ h]
        simp [hk]

theorem lookupTable_foldl_insertNew (src : List transition_entry) :
    ∀ (target : transition_table) (k : tape_state),
      lookupTable (src.foldl insertNew target) k =
        if lookupTable target k = none then lookupTable src k else lookupTable target k := by
  induction src with
  | nil =>
    intro target k
    by_cases h : lookupTable target k = none <;> simp [lookupTable, h]
  | cons e es ih =>
    intro target k
    simp only [List.foldl_cons]
    rw [ih]
    rw [lookupTable_insertNew]
    by_cases ht : lookupTable target k = none
    · by_cases hk : k = e.1
      · subst hk
        simp [ht, lookupTable]
      · have h1 : ¬ e.1 = k := fun h => hk h.symm
        simp [ht, hk, lookupTable, h1]
    · have h2 : ¬ (k = e.1 ∧ lookupTable target k = none) := fun h => ht h.2
      simp [ht, h2]

theorem lookupTable_fromList (es : List transition_entry) (k : tape_state) :
    lookupTable (fromList es) k = lookupTable es k := by
  unfold fromList
  rw [lookupTable_foldl_insertNew]
  simp [lookupTable]

theorem lookupTable_mergeTable (target source : transition_table) (k : tape_state) :
    lookupTable (mergeTable target source) k =
      if lookupTable target k = none then lookupTable source k
      else lookupTable target k := by
  unfold mergeTable
  exact lookupTable_foldl_insertNew source target k

theorem lookupTable_add_transition (tm : turing_machine) (k : tape_state)
    (r : tape_reaction) (k' : tape_state) :
    lookupTable (tm.add_transition k r).transitions k' =
      if k = k' then some r else lookupTable tm.transitions k' := by
  unfold turing_machine.add_transition
  exact lookupTable_assign _ _ _ _

theorem lookupTable_add_transitions (tm : turing_machine) (ts : List transition_entry)
    (k : tape_state) :
    lookupTable (tm.add_transitions ts).transitions k =
      if lookupTable tm.transitions k = none then lookupTable ts k
      else lookupTable tm.transitions k := by
  unfold turing_machine.add_transitions
  rw [lookupTable_mergeTable]
  by_cases h : lookupTable tm.transitions k = none <;>
    simp [h, lookupTable_fromList]

theorem lookupTable_redirect_state (tm : turing_machine) (state_from state_to : String)
    (alphabet : List Char) (k : tape_state) :
    lookupTable (tm.redirect_state state_from state_to alphabet).transitions k =
      if k.1 = state_from ∧ k.2 ∈ alphabet then some ((state_to, k.2), direction.hold)
      else lookupTable tm.transitions k := by
  induction alphabet generalizing tm with
  | nil => simp [turing_machine.redirect_state]
  | cons a as ih =>
    simp only [turing_machine.redirect_state, List.foldl_cons] at ih ⊢
    rw [ih]
    by_cases hblanket : k.1 = state_from ∧ k.2 ∈ as
    · rw [if_pos hblanket, if_pos ⟨hblanket.1, List.mem_cons_of_mem a hblanket.2⟩]
    · rw [if_neg hblanket, lookupTable_add_transition]
      by_cases hk : k.1 = state_from ∧ k.2 = a
      · have hkey : (state_from, a) = k := by
          rw [← hk.1, ← hk.2]
        rw [if_pos hkey, if_pos ⟨hk.1, by rw [hk.2]; exact List.mem_cons_self a as⟩, hk.2]
      · have hkey : ¬ (state_from, a) = k := by
          intro h
          apply hk
          constructor
          · rw [← h]
          · rw [← h]
        have hnot : ¬ (k.1 = state_from ∧ k.2 ∈ a :: as) := by
          rintro ⟨h1, h2⟩
          rcases List.mem_cons.mp h2 with h | h
          · exact hk ⟨h1, h⟩
          · exact hblanket ⟨h1, h⟩
        rw [if_neg hkey, if_neg hnot]

/-! ### Claim theorems -/

/-- C6. The claim says `redirect_state(from, to, alphabet)` adds
`(from, s) -> ((to, s), Hold)` for each alphabet symbol and that every
key present before the call still maps to its previous reaction. The
second half is false: `add_transition` assigns through `operator[]`, so a
pre-existing reaction under a key `(from, s)` with `s` in the alphabet is
overwritten. Counterexample: a machine with the single transition
`("q", '1') -> (("r", '2'), Left)`; after `redirect_state("q", "p", {'1'})`
the key `("q", '1')` maps to `(("p", '1'), Hold)`, not to its previous
reaction. -/
theorem redirect_state_overwrites_cex :
    lookupTable
        (({ transitions := [(("q", '1'), (("r", '2'), direction.left))] } :
            turing_machine).redirect_state "q" "p" ['1']).transitions ("q", '1')
        = some (("p", '1'), direction.hold)
      ∧ lookupTable [(("q", '1'), (("r", '2'), direction.left))] ("q", '1')
        = some (("r", '2'), direction.left)
      ∧ (((("p", '1') : tape_state), direction.hold) : tape_reaction)
        ≠ ((("r", '2') : tape_state), direction.left) :=
  ⟨by decide, by decide, by decide⟩

/-- C6 (amended). `redirect_state(from, to, alphabet)` installs
`(from, s) -> ((to, s), Hold)` for every alphabet symbol `s`, leaves
every other key's reaction untouched, and removes no key (every key
present before is still present after) — but a pre-existing reaction
under a key `(from, s)` with `s` in the alphabet is overwritten, not
preserved. -/
theorem redirect_state_spec (tm : turing_machine) (state_from state_to : String)
    (alphabet : List Char) (k : tape_state) :
    (lookupTable (tm.redirect_state state_from state_to alphabet).transitions k =
       if k.1 = state_from ∧ k.2 ∈ alphabet then some ((state_to, k.2), direction.hold)
       else lookupTable tm.transitions k)
    ∧ ((lookupTable tm.transitions k).isSome →
        (lookupTable (tm.redirect_state state_from state_to alphabet).transitions k).isSome) := by
  refine ⟨lookupTable_redirect_state tm state_from state_to alphabet k, ?_⟩
  intro h
  rw [lookupTable_redirect_state]
  by_cases hb : k.1 = state_from ∧ k.2 ∈ alphabet
  · rw [if_pos hb]; rfl
  · rw [if_neg hb]; exact h

/-- Witness for C6's amended theorem at a concrete machine. -/
theorem redirect_state_spec_witness :
    (lookupTable
        (({ transitions := [(("s", '2'), (("t", '3'), direction.right))] } :
            turing_machine).redirect_state "q" "p" ['1']).transitions ("s", '2') =
      if (("s", '2') : tape_state).1 = "q" ∧ (("s", '2') : tape_state).2 ∈ ['1'] then
        some (("p", '2'), direction.hold)
      else lookupTable [(("s", '2'), (("t", '3'), direction.right))] ("s", '2'))
    ∧ (lookupTable
        (({ transitions := [(("s", '2'), (("t", '3'), direction.right))] } :
            turing_machine).redirect_state "q" "p" ['1']).transitions ("s", '2')).isSome := by
  refine ⟨(redirect_state_spec _ "q" "p" ['1'] ("s", '2')).1,
    (redirect_state_spec _ "q" "p" ['1'] ("s", '2')).2 (by decide)⟩

/-- C9. `add_transitions` merges through `unordered_map::merge`: a key
already present in the receiving machine keeps its reaction and the
incoming reaction is discarded (when the key is fresh, the first incoming
occurrence is taken); a single `add_transition` overwrites. -/
theorem add_transitions_merge_spec (tm : turing_machine) (ts : List transition_entry)
    (k : tape_state) (r : tape_reaction) :
    ((lookupTable tm.transitions k).isSome →
        lookupTable (tm.add_transitions ts).transitions k = lookupTable tm.transitions k)
    ∧ (lookupTable tm.transitions k = none →
        lookupTable (tm.add_transitions ts).transitions k = lookupTable ts k)
    ∧ lookupTable (tm.add_transition k r).transitions k = some r := by
  refine ⟨?_, ?_, ?_⟩
  · intro h
    rw [lookupTable_add_transitions]
    cases hl : lookupTable tm.transitions k with
    | none => rw [hl] at h; simp at h
    | some r' => simp
  · intro h
    rw [lookupTable_add_transitions, h]
    simp
  · rw [lookupTable_add_transition]
    simp

/-- Witness for C9 at a concrete machine: the present key `("q", '1')`
keeps its old reaction when a conflicting table is merged in, and
`add_transition` overwrites it. -/
theorem add_transitions_merge_spec_witness :
    (lookupTable
        (({ transitions := [(("q", '1'), (("r", '1'), direction.left))] } :
            turing_machine).add_transitions
          [(("q", '1'), (("z", '9'), direction.right))]).transitions ("q", '1') =
      lookupTable [(("q", '1'), (("r", '1'), direction.left))] ("q", '1'))
    ∧ lookupTable
        (({ transitions := [(("q", '1'), (("r", '1'), direction.left))] } :
            turing_machine).add_transition ("q", '1')
          (("z", '9'), direction.right)).transitions ("q", '1') =
        some (("z", '9'), direction.right) := by
  exact ⟨(add_transitions_merge_spec _ [(("q", '1'), (("z", '9'), direction.right))]
      ("q", '1') (("z", '9'), direction.right)).1 (by decide),
    (add_transitions_merge_spec _ [] ("q", '1') (("z", '9'), direction.right)).2.2⟩

/-- C10. `status_message` is backed by a map holding only the three
terminal statuses; `.at` on `Running` throws `std::out_of_range`,
modelled by `none`. -/
theorem status_message_terminal_only :
    turing_machine.status_message status.running = none
    ∧ ∀ st : status, st ≠ status.running →
        (turing_machine.status_message st).isSome := by
  refine ⟨rfl, ?_⟩
  intro st h
  cases st <;> simp [turing_machine.status_message] at h ⊢

/-- Witness for C10 at the `Accept` status. -/
theorem status_message_terminal_only_witness :
    (turing_machine.status_message status.accept).isSome :=
  status_message_terminal_only.2 status.accept (by decide)

/-- C7. When the head addresses a materialized cell holding symbol `c`
and the table has no transition for `(current_state, c)`, `step` returns
`Reject` and the machine — current state, head index, and both tape
halves — is exactly what it was before the call. -/
theorem step_missing_transition_rejects (tm : turing_machine) (c : Char)
    (hc : turing_machine.currentSymbol tm = some c)
    (hr : lookupTable tm.transitions (tm.current_state, c) = none) :
    turing_machine.step tm = some (status.reject, tm) := by
  simp only [turing_machine.step, hc, hr]

/-- Witness for C7: a freshly loaded machine with an empty table rejects
on its first step and is returned unchanged. -/
theorem step_missing_transition_rejects_witness :
    turing_machine.currentSymbol { tape_right := ['1'] } = some '1'
    ∧ lookupTable ({ tape_right := ['1'] } : turing_machine).transitions ("qStart", '1') = none
    ∧ turing_machine.step { tape_right := ['1'] }
        = some (status.reject, { tape_right := ['1'] }) :=
  ⟨by decide, by decide,
    step_missing_transition_rejects { tape_right := ['1'] } '1' (by decide) (by decide)⟩

/-- C5. The claim says the status after a successful step is `Accept` if
the new state equals the accept state, `Halt` if it equals the halt
state, `Running` otherwise — i.e. accept takes priority. The code checks
the halt state first: on a machine whose accept state was set to `"H"`
(the halt label), stepping into `"H"` yields `Halt` even though the new
state equals the accept state. -/
theorem step_status_priority_cex :
    (turing_machine.step
        { transitions := [(("q", '1'), (("H", '1'), direction.hold))],
          initial := "q", accept := "H", tape_right := ['1'], current_state := "q" }).map
        (fun p => (p.1, p.2.current_state)) = some (status.halt, "H")
    ∧ ({ transitions := [(("q", '1'), (("H", '1'), direction.hold))],
          initial := "q", accept := "H", tape_right := ['1'],
          current_state := "q" } : turing_machine).accept = "H"
    ∧ status.halt ≠ status.accept :=
  ⟨by decide, by decide, by decide⟩

/-- C5 (amended). After a step that finds a transition with reaction `r`,
the new current state is `r`'s next-state, and the returned status is
`Halt` if that state equals the halt state, otherwise `Accept` if it
equals the accept state, otherwise `Running` (halt checked first). -/
theorem step_status_priority (tm : turing_machine) (c : Char) (r : tape_reaction)
    (hc : turing_machine.currentSymbol tm = some c)
    (hr : lookupTable tm.transitions (tm.current_state, c) = some r) :
    (turing_machine.step tm).map
        (fun p => (p.1, p.2.current_state, p.2.halt_state, p.2.accept)) =
      some ((if r.1.1 = tm.halt_state then status.halt
             else if r.1.1 = tm.accept then status.accept
             else status.running),
            r.1.1, tm.halt_state, tm.accept) := by
  simp only [turing_machine.step, hc, hr, turing_machine.writeAtPos]
  split_ifs <;> rfl

/-- Witness for C5's amended theorem: a machine stepping into a plain
(non-halt, non-accept) state reports `Running`. -/
theorem step_status_priority_witness :
    turing_machine.currentSymbol
        { transitions := [(("q", '1'), (("r", '1'), direction.right))],
          initial := "q", tape_right := ['1', '2'], current_state := "q" } = some '1'
    ∧ (turing_machine.step
        { transitions := [(("q", '1'), (("r", '1'), direction.right))],
          initial := "q", tape_right := ['1', '2'], current_state := "q" }).map
        (fun p => (p.1, p.2.current_state, p.2.halt_state, p.2.accept)) =
      some (status.running, "r", "H", "Y") :=
  ⟨by decide, by
    have h := step_status_priority
      { transitions := [(("q", '1'), (("r", '1'), direction.right))],
        initial := "q", tape_right := ['1', '2'], current_state := "q" }
      '1' (("r", '1'), direction.right) (by decide) (by decide)
    simpa using h⟩

/-- The machine of C1: `repeat(consume_right('a'), do_until, 'b')`,
with component names `"consume"` and `"rep"`. -/
def repeat_consume : turing_machine :=
  component.repeatTM (component.consume_right 'a' "consume")
    component.repeater.do_until 'b' "rep"

/-- C1. The claim says this machine accepts `"aaab"` (after consuming the
three `a`s) and accepts `"b"` immediately. Both are false on the code:
the component alphabet is `{#,1,2,3,4,:,_}`, which contains neither `a`
nor `b`, so the blanket redirect from the body's accept state covers no
symbol actually read, and the machine starts in the body's initial state
so a zero-iteration accept is impossible. On `"aaab"` the first `a` is
consumed and the second step rejects; the final status is `Reject`, not
`Accept`. -/
theorem repeat_consume_cex :
    (turing_machine.runTrace 30 (repeat_consume.load_input "aaab".toList)).map Prod.fst
      = some [status.running, status.reject]
    ∧ (turing_machine.runTrace 30 (repeat_consume.load_input "b".toList)).map Prod.fst
      = some [status.reject]
    ∧ status.reject ≠ status.accept :=
  ⟨by decide, by decide, by decide⟩

/-- C1 (amended). With the fixed component alphabet `{#,1,2,3,4,:,_}`
(which lacks `a` and `b`): on `"aaab"` the machine consumes the first
`a` and rejects on the next step (the accept-state redirect has no entry
for `a`); on `"b"` it rejects immediately (the run starts in the body's
initial state, whose only transition reads `a`, so zero-iteration
acceptance is impossible); on `"aac"` it likewise rejects after one
step. -/
theorem repeat_consume_runs :
    (turing_machine.runTrace 30 (repeat_consume.load_input "aaab".toList)).map Prod.fst
      = some [status.running, status.reject]
    ∧ (turing_machine.runTrace 30 (repeat_consume.load_input "b".toList)).map Prod.fst
      = some [status.reject]
    ∧ (turing_machine.runTrace 30 (repeat_consume.load_input "aac".toList)).map Prod.fst
      = some [status.running, status.reject] :=
  ⟨by decide, by decide, by decide⟩

/-- C2. The claim says `Move(3, Right)` has accept state `"3"` and on
input `"ab"` runs `Running, Running, Accept`. On the code, the accept
state of every `_move` machine is the default `"Y"` (state `"3"` only
reaches `"Y"` through an extra hold transition), and the fixed component
alphabet `{#,1,2,3,4,:,_}` contains neither `a` nor `b`, so on `"ab"`
the very first step finds no transition and the run rejects. -/
theorem move_right_3_cex :
    (component.move_right 3 "m").accept = "Y"
    ∧ ("Y" : String) ≠ "3"
    ∧ (turing_machine.runTrace 30
        ((component.move_right 3 "m").load_input "ab".toList)).map Prod.fst
      = some [status.reject]
    ∧ ([status.reject] : List status) ≠ [status.running, status.running, status.accept] :=
  ⟨by decide, by decide, by decide, by decide⟩

/-- C2 (amended). `_move(n, name, dir)` has initial state `"0"`, the
default accept state `"Y"` (not `"n"`), and title `name`; for `n = 3`
and every symbol `s` of the fixed alphabet it has transitions
`("i", s) -> (("i+1", s), dir)` for `i < 3` plus `("3", s) -> (("Y", s), Hold)`.
`Move(3, Right)` rejects at once on `"ab"` (symbols outside the
alphabet); on the in-alphabet input `"12"` the statuses are
`Running, Running, Running, Accept` (four steps: the hold transition
into `"Y"` is one extra step), with final head index 3 and final tape
`"12__"` (grown by two blanks, one per right move past the end). -/
theorem move_right_3_spec :
    (∀ (n : Nat) (name : String) (d : direction),
      (component._move n name d).initial = "0"
      ∧ (component._move n name d).accept = "Y"
      ∧ (component._move n name d).title = name)
    ∧ (∀ s ∈ component.alphabet,
        (∀ i, i < 3 →
          lookupTable (component.move_right 3 "m").transitions (toString i, s)
            = some ((toString (i + 1), s), direction.right))
        ∧ lookupTable (component.move_right 3 "m").transitions ("3", s)
            = some (("Y", s), direction.hold))
    ∧ (turing_machine.runTrace 30
        ((component.move_right 3 "m").load_input "ab".toList)).map Prod.fst
      = some [status.reject]
    ∧ (turing_machine.runTrace 30
        ((component.move_right 3 "m").load_input "12".toList)).map
        (fun p => (p.1, p.2.head_index, p.2.tape))
      = some ([status.running, status.running, status.running, status.accept],
              3, "12__".toList) := by
  refine ⟨?_, by decide, by decide, by decide⟩
  intro n name d
  exact ⟨rfl, rfl, rfl⟩

/-- Witness for C2's amended theorem: instantiating the quantified parts
at `n = 3`, symbol `'1'`, index `0`. -/
theorem move_right_3_spec_witness :
    (component._move 3 "m" direction.right).initial = "0"
    ∧ ('1' ∈ component.alphabet)
    ∧ (0 : Nat) < 3
    ∧ lookupTable (component.move_right 3 "m").transitions (toString 0, '1')
        = some ((toString 1, '1'), direction.right) :=
  ⟨(move_right_3_spec.1 3 "m" direction.right).1, by decide, by decide,
    (move_right_3_spec.2.1 '1' (by decide)).1 0 (by decide)⟩

/-! ### Prefixing (C3) -/

/-- One transition entry with every state label passed through `f`
(key state and reaction next-state). -/
def rename_entry (f : String → String) (e : transition_entry) : transition_entry :=
  ((f e.1.1, e.1.2), ((f e.2.1.1, e.2.1.2), e.2.2))

theorem append_left_cancel_str (a b c : String) (h : a ++ b = a ++ c) : b = c := by
  have h2 : (a ++ b).data = (a ++ c).data := congrArg String.data h
  simp only [String.data_append] at h2
  exact String.ext (List.append_cancel_left h2)

theorem foldl_assign_map (f : transition_entry → transition_entry)
    (l : List transition_entry) :
    ∀ acc : transition_table,
      (∀ e ∈ l, lookupTable acc (f e).1 = none) →
      (l.map (fun e => (f e).1)).Nodup →
      l.foldl (fun a e => assign a (f e).1 (f e).2) acc = acc ++ l.map f := by
  induction l with
  | nil => intro acc _ _; simp
  | cons e l ih =>
    intro acc hfresh hnodup
    simp only [List.foldl_cons]
    have h0 : lookupTable acc (f e).1 = none := hfresh e (List.mem_cons_self e l)
    rw [assign_eq_append _ _ _ h0]
    have hcons : ((f e).1 :: l.map (fun x => (f x).1)).Nodup := by
      have h' := hnodup
      rw [List.map_cons] at h'
      exact h'
    have hnd := List.nodup_cons.mp hcons
    have hfresh' : ∀ e' ∈ l, lookupTable (acc ++ [((f e).1, (f e).2)]) (f e').1 = none := by
      intro e' he'
      have hacc : lookupTable acc (f e').1 = none := hfresh e' (List.mem_cons_of_mem e he')
      rw [lookupTable_append_right _ _ _ hacc]
      have hne : ¬ (f e).1 = (f e').1 := by
        intro hcontra
        exact hnd.1 (hcontra ▸ List.mem_map_of_mem (fun x => (f x).1) he')
      simp [lookupTable, hne]
    rw [ih (acc ++ [((f e).1, (f e).2)]) hfresh' hnd.2]
    simp

/-- C3. The claim says `prefix(p)` renames the halt state like every
other state. It does not: `transform_states` builds a fresh machine from
the renamed table, and the fresh machine's halt state is the default
`"H"` — there is no setter for it and it is never passed through the
callback. -/
theorem prefix_states_halt_cex :
    ((component.consume_right 'a' "t").prefix_states "p").halt_state = "H"
    ∧ ("H" : String) ≠ "[p]H" :=
  ⟨by decide, by decide⟩

/-- C3 (amended). For a machine whose table keys are duplicate-free,
`prefix(p)` renames every table key's state, every reaction next-state,
the initial state and the accept state to `"[p]" ++ q`, and preserves the
title — but the halt state is *not* renamed: the result's halt state is
the default `"H"`. -/
theorem prefix_states_spec (tm : turing_machine) (p : String)
    (hN : (tm.transitions.map Prod.fst).Nodup) :
    (tm.prefix_states p).transitions
        = tm.transitions.map (rename_entry (fun q => "[" ++ p ++ "]" ++ q))
    ∧ (tm.prefix_states p).initial = "[" ++ p ++ "]" ++ tm.initial
    ∧ (tm.prefix_states p).accept = "[" ++ p ++ "]" ++ tm.accept
    ∧ (tm.prefix_states p).title = tm.title
    ∧ (tm.prefix_states p).halt_state = "H" := by
  refine ⟨?_, rfl, rfl, rfl, rfl⟩
  show (tm.transform_states (fun q => "[" ++ p ++ "]" ++ q)).transitions = _
  unfold turing_machine.transform_states
  have hinj : Function.Injective (fun q : String => "[" ++ p ++ "]" ++ q) := by
    intro a b h
    exact append_left_cancel_str _ _ _ h
  have hkinj : Function.Injective
      (fun k : tape_state => (("[" ++ p ++ "]" ++ k.1 : String), k.2)) := by
    intro a b h
    obtain ⟨a1, a2⟩ := a
    obtain ⟨b1, b2⟩ := b
    simp only [Prod.mk.injEq] at h
    obtain ⟨h1, h2⟩ := h
    rw [hinj h1, h2]
  have hnodup : (tm.transitions.map
      (fun e => (rename_entry (fun q => "[" ++ p ++ "]" ++ q) e).1)).Nodup := by
    have : (fun e : transition_entry =>
        (rename_entry (fun q => "[" ++ p ++ "]" ++ q) e).1)
        = (fun k : tape_state => (("[" ++ p ++ "]" ++ k.1 : String), k.2)) ∘ Prod.fst := rfl
    rw [this, ← List.map_map]
    exact hN.map (fun a b h => hkinj h)
  have := foldl_assign_map (rename_entry (fun q => "[" ++ p ++ "]" ++ q))
    tm.transitions [] (fun e _ => rfl) hnodup
  simpa using this

/-- Witness for C3's amended theorem at a concrete one-transition
machine. -/
theorem prefix_states_spec_witness :
    ((component.consume_right 'a' "t").prefix_states "p").transitions
      = (component.consume_right 'a' "t").transitions.map
          (rename_entry (fun q => "[" ++ "p" ++ "]" ++ q)) :=
  (prefix_states_spec (component.consume_right 'a' "t") "p" (by decide)).1

/-! ### Tape invariant (C8) -/

/-- The run-state invariant of a loaded machine: the right tape half is
nonempty and the head addresses a materialized cell. -/
def loaded_inv (tm : turing_machine) : Prop :=
  tm.tape_right ≠ []
  ∧ ((0 ≤ tm.head_index ∧ tm.head_index.toNat < tm.tape_right.length)
     ∨ (tm.head_index < 0 ∧ (-tm.head_index - 1).toNat < tm.tape_left.length))

theorem loaded_inv_load_input (tm : turing_machine) (input : List Char) :
    loaded_inv (tm.load_input input) := by
  unfold loaded_inv turing_machine.load_input
  by_cases h : input = [] <;> simp [h]
  exact List.length_pos.mpr h

theorem step_preserves_inv (tm : turing_machine) (st : status) (tm' : turing_machine)
    (hinv : loaded_inv tm) (h : turing_machine.step tm = some (st, tm')) :
    loaded_inv tm'
    ∧ tm'.tape_right.length
        = (if tm'.head_index = (tm.tape_right.length : Int) then tm.tape_right.length + 1
           else tm.tape_right.length)
    ∧ (tm'.head_index = (tm.tape_right.length : Int) →
        tm'.tape_right.getLast? = some blank_symbol)
    ∧ tm'.tape_left.length
        = (if -tm'.head_index - 1 = (tm.tape_left.length : Int) then tm.tape_left.length + 1
           else tm.tape_left.length)
    ∧ (-tm'.head_index - 1 = (tm.tape_left.length : Int) →
        tm'.tape_left.getLast? = some blank_symbol) := by
  obtain ⟨hne, hbound⟩ := hinv
  cases hcs : turing_machine.currentSymbol tm with
  | none =>
    simp [turing_machine.step, hcs] at h
  | some c =>
    cases hlk : lookupTable tm.transitions (tm.current_state, c) with
    | none =>
      simp only [turing_machine.step, hcs, hlk, Option.some_inj, Prod.mk.injEq] at h
      obtain ⟨hst, htm⟩ := h
      subst htm
      have hR : ¬ tm.head_index = (tm.tape_right.length : Int) := by
        rcases hbound with ⟨h1, h2⟩ | ⟨h1, h2⟩ <;> omega
      have hL : ¬ (-tm.head_index - 1 = (tm.tape_left.length : Int)) := by
        rcases hbound with ⟨h1, h2⟩ | ⟨h1, h2⟩ <;> omega
      refine ⟨⟨hne, hbound⟩, by rw [if_neg hR], fun hh => absurd hh hR,
        by rw [if_neg hL], fun hh => absurd hh hL⟩
    | some reaction =>
      have hd : -1 ≤ turing_machine.index_diff reaction.2
          ∧ turing_machine.index_diff reaction.2 ≤ 1 := by
        cases reaction.2 <;> exact ⟨by decide, by decide⟩
      have hRlen : 0 < tm.tape_right.length := List.length_pos.mpr hne
      by_cases hw : 0 ≤ tm.head_index <;>
        simp only [turing_machine.step, hcs, hlk, turing_machine.writeAtPos, hw, if_true,
          if_false, List.length_set, Option.some_inj] at h <;>
        replace h := congrArg Prod.snd h <;>
        simp only [] at h <;>
        split_ifs at h with hg1 hg2 hg2 <;>
        subst h <;>
        dsimp only at hg1 hg2 ⊢ <;>
        (try simp only [List.length_set] at hg1 hg2) <;>
        refine ⟨⟨?_, ?_⟩, ?_, ?_, ?_, ?_⟩ <;>
        first
          | (rw [← List.length_pos]
             try simp only [List.length_set, List.length_append, List.length_singleton]
             omega)
          | (try simp only [List.length_set, List.length_append, List.length_singleton]
             omega)
          | (try simp only [List.length_set, List.length_append, List.length_singleton]
             split_ifs <;> omega)
          | (intro hh
             simp only [List.getLast?_concat])


theorem stepN_preserves_inv (n : Nat) :
    ∀ (m m' : turing_machine), loaded_inv m →
      turing_machine.stepN n m = some m' → loaded_inv m' := by
  induction n with
  | zero =>
    intro m m' hinv h
    simp only [turing_machine.stepN, Option.some_inj] at h
    exact h ▸ hinv
  | succ n ih =>
    intro m m' hinv h
    simp only [turing_machine.stepN] at h
    cases hs : turing_machine.step m with
    | none =>
      rw [hs] at h
      exact Option.noConfusion h
    | some p =>
      rw [hs] at h
      have hs' : turing_machine.step m = some (p.1, p.2) := hs
      exact ih p.2 m' (step_preserves_inv m p.1 p.2 hinv hs').1 h

/-- C8. After `load_input` and any number of `step()` calls the run-state
invariant holds: `tape_right` is nonempty and the head addresses a
materialized cell. Moreover a single step from an invariant state grows
each tape half by exactly one blank cell exactly when the head moved to
the virgin cell one past that half's end (including head index `-1` on a
first left move, which materializes `tape_left`'s first blank), and
otherwise leaves that half's length unchanged. -/
theorem tape_growth_invariant :
    (∀ (tm : turing_machine) (input : List Char) (n : Nat) (tm' : turing_machine),
        turing_machine.stepN n (tm.load_input input) = some tm' → loaded_inv tm')
    ∧ (∀ (m : turing_machine) (st : status) (m' : turing_machine),
        loaded_inv m → turing_machine.step m = some (st, m') →
          loaded_inv m'
          ∧ m'.tape_right.length
              = (if m'.head_index = (m.tape_right.length : Int) then m.tape_right.length + 1
                 else m.tape_right.length)
          ∧ (m'.head_index = (m.tape_right.length : Int) →
              m'.tape_right.getLast? = some blank_symbol)
          ∧ m'.tape_left.length
              = (if -m'.head_index - 1 = (m.tape_left.length : Int) then m.tape_left.length + 1
                 else m.tape_left.length)
          ∧ (-m'.head_index - 1 = (m.tape_left.length : Int) →
              m'.tape_left.getLast? = some blank_symbol)) :=
  ⟨fun tm input n tm' h =>
      stepN_preserves_inv n (tm.load_input input) tm' (loaded_inv_load_input tm input) h,
    fun m st m' hinv h => step_preserves_inv m st m' hinv h⟩

/-- Witness for C8: the invariant holds for a freshly loaded machine
(zero steps). -/
theorem tape_growth_invariant_witness :
    loaded_inv (({} : turing_machine).load_input ['1']) :=
  tape_growth_invariant.1 {} ['1'] 0 (({} : turing_machine).load_input ['1']) rfl

/-! ### Round-trip lemmas (C4) -/

theorem splitOnChar_of_not_mem (c : Char) (l : List Char) (h : c ∉ l) :
    splitOnChar c l = [l] := by
  induction l with
  | nil => rfl
  | cons x xs ih =>
    have hx : ¬ x = c := fun hc => h (hc ▸ List.mem_cons_self x xs)
    have hxs : c ∉ xs := fun hc => h (List.mem_cons_of_mem x hc)
    simp only [splitOnChar, hx, if_false, ih hxs]

theorem splitOnChar_append_cons (c : Char) (a ys : List Char) (h : c ∉ a) :
    splitOnChar c (a ++ c :: ys) = a :: splitOnChar c ys := by
  induction a with
  | nil => simp [splitOnChar]
  | cons x xs ih =>
    have hx : ¬ x = c := fun hc => h (hc ▸ List.mem_cons_self x xs)
    have hxs : c ∉ xs := fun hc => h (List.mem_cons_of_mem x hc)
    simp only [List.cons_append, splitOnChar, hx, if_false, List.append_eq]
    rw [ih hxs]

theorem splitOnChar_unlines (ls : List (List Char)) (h : ∀ l ∈ ls, '\n' ∉ l) :
    splitOnChar '\n' (unlines ls) = ls ++ [[]] := by
  induction ls with
  | nil => rfl
  | cons l ls ih =>
    have hl : '\n' ∉ l := h l (List.mem_cons_self l ls)
    have hls : ∀ l' ∈ ls, '\n' ∉ l' := fun l' hl' => h l' (List.mem_cons_of_mem l hl')
    show splitOnChar '\n' (l ++ '\n' :: unlines ls) = (l :: ls) ++ [[]]
    rw [splitOnChar_append_cons '\n' l _ hl, ih hls]
    rfl

theorem getLast?_unlines_cons (ls : List (List Char)) :
    ∀ l : List Char, (l ++ '\n' :: unlines ls).getLast? = some '\n' := by
  induction ls with
  | nil =>
    intro l
    simp [unlines, List.getLast?_concat]
  | cons l2 ls2 ih =>
    intro l
    rw [List.getLast?_append_cons]
    show (('\n' :: l2) ++ '\n' :: unlines ls2).getLast? = some '\n'
    exact ih ('\n' :: l2)

theorem getLines_unlines (ls : List (List Char)) (h : ∀ l ∈ ls, '\n' ∉ l) :
    getLines (unlines ls) = ls := by
  cases ls with
  | nil => rfl
  | cons l ls =>
    unfold getLines
    have hlast : (unlines (l :: ls)).getLast? = some '\n' := getLast?_unlines_cons ls l
    rw [if_pos (Or.inl hlast), splitOnChar_unlines _ h, List.dropLast_concat]

theorem dropWhile_false_of_all (p : Char → Bool) (l : List Char)
    (h : ∀ x ∈ l, p x = false) : l.dropWhile p = l := by
  cases l with
  | nil => rfl
  | cons x xs =>
    simp only [List.dropWhile_cons, h x (List.mem_cons_self x xs)]
    simp

theorem trimChars_space_cons (l : List Char) (h : ∀ x ∈ l, is_space x = false) :
    trimChars (' ' :: l) = l := by
  unfold trimChars
  have h1 : (' ' :: l).dropWhile is_space = l.dropWhile is_space := by
    simp [List.dropWhile_cons, is_space]
  rw [h1, dropWhile_false_of_all is_space l h,
    dropWhile_false_of_all is_space l.reverse (fun x hx => h x (List.mem_reverse.mp hx)),
    List.reverse_reverse]

theorem specToDir_dirToSpec (d : direction) : specToDir (dirToSpec d) = some d := by
  cases d <;> rfl

theorem string_mk_toList (s : String) : String.mk s.toList = s := rfl

/-- A state label that survives a transition line: no `,` (field
separator) and no newline (line separator). -/
abbrev goodLabel (s : String) : Prop := ∀ c ∈ s.toList, c ≠ ',' ∧ c ≠ '\n'

/-- A state label that survives a header line: no `:` (the header is
split at `:`) and no whitespace (field 1 is trimmed; newline is
whitespace). -/
abbrev goodHeaderLabel (s : String) : Prop :=
  ∀ c ∈ s.toList, c ≠ ':' ∧ is_space c = false

/-- A transition entry whose serialized two lines parse back exactly:
good labels, the key's state does not begin with `//` (else its line is
skipped as a comment), and the two symbols are neither `,` nor a
newline. -/
abbrev goodEntry (e : transition_entry) : Prop :=
  goodLabel e.1.1 ∧ e.1.1.toList.take 2 ≠ ['/', '/'] ∧ e.1.2 ≠ ',' ∧ e.1.2 ≠ '\n'
  ∧ goodLabel e.2.1.1 ∧ e.2.1.2 ≠ ',' ∧ e.2.1.2 ≠ '\n'

theorem take_two_key_line (s r : List Char) (hs : s.take 2 ≠ ['/', '/']) :
    (s ++ ',' :: r).take 2 ≠ ['/', '/'] := by
  match s with
  | [] =>
    intro h
    rw [List.nil_append] at h
    simp at h
  | [a] =>
    intro h
    rw [List.singleton_append] at h
    simp at h
  | a :: b :: t =>
    intro h
    apply hs
    simp only [List.cons_append] at h
    simp at h ⊢
    exact h

theorem comma_not_mem_dirToSpec (d : direction) : ',' ∉ dirToSpec d := by
  cases d <;> decide

theorem newline_not_mem_dirToSpec (d : direction) : '\n' ∉ dirToSpec d := by
  cases d <;> decide

theorem splitOnChar_key_line (s : List Char) (c : Char)
    (hs : ',' ∉ s) (hc : c ≠ ',') :
    splitOnChar ',' (s ++ ',' :: [c]) = [s, [c]] := by
  rw [splitOnChar_append_cons ',' s [c] hs,
    splitOnChar_of_not_mem ',' [c] (by intro hmem; simp at hmem; exact hc hmem.symm)]

theorem splitOnChar_reaction_line (s : List Char) (c : Char) (spec : List Char)
    (hs : ',' ∉ s) (hc : c ≠ ',') (hspec : ',' ∉ spec) :
    splitOnChar ',' (s ++ ',' :: c :: ',' :: spec) = [s, [c], spec] := by
  rw [splitOnChar_append_cons ',' s (c :: ',' :: spec) hs]
  have : c :: ',' :: spec = [c] ++ ',' :: spec := rfl
  rw [this, splitOnChar_append_cons ',' [c] spec (by intro hmem; simp at hmem; exact hc hmem.symm),
    splitOnChar_of_not_mem ',' spec hspec]

theorem parseLoop_entry (tm : turing_machine) (e : transition_entry) (rest : List (List Char))
    (hg1 : goodLabel e.1.1) (hg2 : e.1.1.toList.take 2 ≠ ['/', '/'])
    (hg3 : e.1.2 ≠ ',')
    (hg5 : goodLabel e.2.1.1) (hg6 : e.2.1.2 ≠ ',') :
    parseLoop tm (entryLines e ++ rest)
      = parseLoop (tm.add_transition e.1 e.2) rest := by
  have hcomma1 : ',' ∉ e.1.1.toList := fun hmem => (hg1 ',' hmem).1 rfl
  have hcomma2 : ',' ∉ e.2.1.1.toList := fun hmem => (hg5 ',' hmem).1 rfl
  show parseLoop tm
      ((e.1.1.toList ++ ',' :: [e.1.2])
        :: (e.2.1.1.toList ++ ',' :: e.2.1.2 :: ',' :: dirToSpec e.2.2)
        :: [] :: rest)
    = parseLoop (tm.add_transition e.1 e.2) rest
  have hne : (e.1.1.toList ++ ',' :: [e.1.2]) ≠ [] := by simp
  have hslash : (e.1.1.toList ++ ',' :: [e.1.2]).take 2 ≠ ['/', '/'] :=
    take_two_key_line _ _ hg2
  simp only [parseLoop, hne, hslash, if_false,
    splitOnChar_key_line _ _ hcomma1 hg3,
    splitOnChar_reaction_line _ _ _ hcomma2 hg6 (comma_not_mem_dirToSpec e.2.2),
    List.get?_cons_zero, List.get?_cons_succ, Option.some_bind, List.head?_cons,
    specToDir_dirToSpec, string_mk_toList, if_true, Prod.mk.eta]

theorem parseLoop_flatMap (entries : List transition_entry) :
    ∀ tm : turing_machine, (∀ e ∈ entries, goodEntry e) →
      parseLoop tm (entries.flatMap entryLines)
        = some (entries.foldl (fun m e => m.add_transition e.1 e.2) tm) := by
  induction entries with
  | nil => intro tm _; rfl
  | cons e es ih =>
    intro tm hgood
    obtain ⟨hg1, hg2, hg3, _, hg5, hg6, _⟩ := hgood e (List.mem_cons_self e es)
    have hgood' : ∀ e' ∈ es, goodEntry e' := fun e' he' => hgood e' (List.mem_cons_of_mem e he')
    rw [List.flatMap_cons, parseLoop_entry tm e _ hg1 hg2 hg3 hg5 hg6,
      ih (tm.add_transition e.1 e.2) hgood', List.foldl_cons]

theorem foldl_add_transition_fresh (entries : List transition_entry) :
    ∀ tm : turing_machine,
      (∀ e ∈ entries, lookupTable tm.transitions e.1 = none) →
      (entries.map Prod.fst).Nodup →
      entries.foldl (fun m e => m.add_transition e.1 e.2) tm
        = { tm with transitions := tm.transitions ++ entries } := by
  induction entries with
  | nil =>
    intro tm _ _
    simp only [List.foldl_nil, List.append_nil]
  | cons e es ih =>
    intro tm hfresh hnodup
    simp only [List.foldl_cons]
    have h0 : lookupTable tm.transitions e.1 = none := hfresh e (List.mem_cons_self e es)
    have hadd : tm.add_transition e.1 e.2 = { tm with transitions := tm.transitions ++ [e] } := by
      unfold turing_machine.add_transition
      rw [assign_eq_append _ _ _ h0]
    rw [hadd]
    have hcons : (e.1 :: es.map Prod.fst).Nodup := by
      have h' := hnodup
      rw [List.map_cons] at h'
      exact h'
    have hnd := List.nodup_cons.mp hcons
    have hfresh' : ∀ e' ∈ es,
        lookupTable ({ tm with transitions := tm.transitions ++ [e] } :
          turing_machine).transitions e'.1 = none := by
      intro e' he'
      show lookupTable (tm.transitions ++ [e]) e'.1 = none
      rw [lookupTable_append_right _ _ _ (hfresh e' (List.mem_cons_of_mem e he'))]
      have hne : ¬ e.1 = e'.1 := by
        intro hcontra
        exact hnd.1 (hcontra ▸ List.mem_map_of_mem Prod.fst he')
      simp [lookupTable, hne]
    rw [ih _ hfresh' hnd.2]
    simp [List.append_assoc]

theorem splitOnChar_header (pre : List Char) (hpre : ':' ∉ pre) (s : String)
    (hs : goodHeaderLabel s) :
    splitOnChar ':' (pre ++ ':' :: ' ' :: s.toList) = [pre, ' ' :: s.toList] := by
  have hmem : ':' ∉ ' ' :: s.toList := by
    intro hmem
    rcases List.mem_cons.mp hmem with h | h
    · exact absurd h (by decide)
    · exact (hs ':' h).1 rfl
  rw [splitOnChar_append_cons ':' pre _ hpre, splitOnChar_of_not_mem ':' _ hmem]

/-- C4. The claim quantifies over every machine, but the format has
reserved characters: a `:` inside the initial (or accept) label is taken
as the header separator and everything from it on is lost. Concretely,
serializing a machine whose initial state is `"a:b"` and parsing the
result yields initial state `"a"`. (The flagship machine of `main.cpp`
actually hits this: its prefixed states contain `:` from titles such as
`"move_to_col1:"`.) -/
theorem serialize_parse_colon_cex :
    (parse (serialize ({ initial := "a:b" } : turing_machine))).map turing_machine.initial
      = some "a"
    ∧ (some "a" : Option String) ≠ some "a:b" :=
  ⟨by decide, by decide⟩

/-- C4 (amended). For machines whose initial and accept labels contain
no `:` and no whitespace, whose transition labels contain no `,` and no
newline with key states not beginning `//`, whose symbols are neither
`,` nor newline, and whose table keys are duplicate-free, the
serialize-parse round trip is lossless on transitions, initial and
accept; the title is not serialized and comes back as the default
`"MyMachine"`; and re-serializing the parsed machine reproduces the
same text. -/
theorem serialize_parse_roundtrip (tm : turing_machine)
    (hI : goodHeaderLabel tm.initial) (hA : goodHeaderLabel tm.accept)
    (hE : ∀ e ∈ tm.transitions, goodEntry e)
    (hN : (tm.transitions.map Prod.fst).Nodup) :
    parse (serialize tm)
      = some { transitions := tm.transitions, initial := tm.initial, accept := tm.accept }
    ∧ ({ transitions := tm.transitions, initial := tm.initial,
          accept := tm.accept : turing_machine }).title = "MyMachine"
    ∧ serialize { transitions := tm.transitions, initial := tm.initial, accept := tm.accept }
      = serialize tm := by
  refine ⟨?_, rfl, rfl⟩
  unfold parse serialize
  have hnonl : ∀ l ∈ serializeLines tm, '\n' ∉ l := by
    intro l hl
    unfold serializeLines at hl
    rcases List.mem_cons.mp hl with h | hl
    · subst h
      intro hmem
      rcases List.mem_append.mp hmem with h | h
      · exact absurd h (by decide)
      · exact absurd ((hI '\n' h).2) (by decide)
    rcases List.mem_cons.mp hl with h | hl
    · subst h
      intro hmem
      rcases List.mem_append.mp hmem with h | h
      · exact absurd h (by decide)
      · exact absurd ((hA '\n' h).2) (by decide)
    rcases List.mem_cons.mp hl with h | hl
    · subst h; simp
    · obtain ⟨e, he, hline⟩ := List.mem_flatMap.mp hl
      obtain ⟨hg1, _, _, hg4, hg5, _, hg7⟩ := hE e he
      unfold entryLines at hline
      rcases List.mem_cons.mp hline with h | hline
      · subst h
        intro hmem
        rcases List.mem_append.mp hmem with h | h
        · exact (hg1 '\n' h).2 rfl
        · rcases List.mem_cons.mp h with h | h
          · exact absurd h (by decide)
          · rcases List.mem_singleton.mp h ▸ hg4 with h'
            exact h' rfl
      rcases List.mem_cons.mp hline with h | hline
      · subst h
        intro hmem
        rcases List.mem_append.mp hmem with h | h
        · exact (hg5 '\n' h).2 rfl
        · rcases List.mem_cons.mp h with h | h
          · exact absurd h (by decide)
          · rcases List.mem_cons.mp h with h | h
            · exact hg7 (h ▸ rfl)
            · rcases List.mem_cons.mp h with h | h
              · exact absurd h (by decide)
              · exact newline_not_mem_dirToSpec e.2.2 h
      · rcases List.mem_singleton.mp hline with h
        subst h
        simp
  rw [getLines_unlines _ hnonl]
  show parseLines
      (("init: ".toList ++ tm.initial.toList)
        :: ("accept: ".toList ++ tm.accept.toList)
        :: [] :: tm.transitions.flatMap entryLines)
    = _
  have hinit : "init: ".toList ++ tm.initial.toList
      = "init".toList ++ ':' :: ' ' :: tm.initial.toList := rfl
  have haccept : "accept: ".toList ++ tm.accept.toList
      = "accept".toList ++ ':' :: ' ' :: tm.accept.toList := rfl
  have hsplitI := splitOnChar_header "init".toList (by decide) tm.initial hI
  have hsplitA := splitOnChar_header "accept".toList (by decide) tm.accept hA
  have htrimI := trimChars_space_cons tm.initial.toList (fun x hx => (hI x hx).2)
  have htrimA := trimChars_space_cons tm.accept.toList (fun x hx => (hA x hx).2)
  simp only [parseLines, hinit, haccept, hsplitI, hsplitA,
    List.get?_cons_zero, List.get?_cons_succ, htrimI, htrimA, string_mk_toList]
  show parseLoop
      (turing_machine.set_accept_state
        (turing_machine.set_initial_state {} tm.initial) tm.accept)
      (tm.transitions.flatMap entryLines) = _
  rw [parseLoop_flatMap tm.transitions
      (turing_machine.set_accept_state
        (turing_machine.set_initial_state {} tm.initial) tm.accept) hE,
    foldl_add_transition_fresh tm.transitions
      (turing_machine.set_accept_state
        (turing_machine.set_initial_state {} tm.initial) tm.accept)
      (fun e _ => rfl) hN]
  rfl

/-- A concrete one-transition machine used as the round-trip witness. -/
def roundtrip_example : turing_machine :=
  { transitions := [(("q", '1'), (("Y", '1'), direction.right))]
    initial := "q"
    accept := "Y" }

/-- Witness for C4's amended theorem at a concrete one-transition
machine: the round trip returns exactly the machine's table, initial and
accept, with the default title. -/
theorem serialize_parse_roundtrip_witness :
    parse (serialize roundtrip_example)
      = some { transitions := roundtrip_example.transitions
               initial := roundtrip_example.initial
               accept := roundtrip_example.accept } :=
  (serialize_parse_roundtrip roundtrip_example
    (by decide) (by decide) (by decide) (by decide)).1

end Tmsg
